import Mathlib

/-!
Shallow embedding of the rano text editor (`src/main.rs`): the `Editor`
state struct, its buffer/cursor/viewport operations, and proofs of the
specification claims about them.

Conventions of the embedding:
* Rust `String` lines become `List Char`; the document `Vec<String>`
  becomes `List (List Char)`.
* Rust operations whose indexing can go out of range (`String::insert`,
  `String::remove`, `String::split_off`, `Vec::remove`, `Vec::insert`,
  `v[i]`) are modelled as `Option`-valued functions: `none` is the
  panicking branch of the corresponding Rust operation.
* File I/O is modelled by its data: `openEd` receives the result of
  `fs::read_to_string` as an `Option (List Char)` (`none` = read error),
  and `save` returns the bytes that would be written.
-/

namespace Rano

/-- The four arrow keys dispatched to `Editor::move_cursor`, plus a
catch-all for every other key code (the `_ => {}` arm). -/
inductive KeyCode where
  | up
  | down
  | left
  | right
  | other
  deriving DecidableEq, Repr

/-- Rust struct `Editor`: the current state of the text editor. -/
structure Editor where
  filename : List Char
  content : List (List Char)
  cursor_x : Nat
  cursor_y : Nat
  scroll_y : Nat
  modified : Bool
  search_query : Option (List Char)
  deriving DecidableEq, Repr

/-- Rust `String::insert(i, c)` / `Vec::insert(i, a)`: panics when `i > len`. -/
def seqInsert (l : List α) (i : Nat) (a : α) : Option (List α) :=
  if i ≤ l.length then some (l.take i ++ a :: l.drop i) else none

/-- Rust `String::remove(i)` / `Vec::remove(i)`: panics when `i ≥ len`;
returns the removed element together with the remaining sequence. -/
def seqRemove (l : List α) (i : Nat) : Option (α × List α) :=
  match l.get? i with
  | some a => some (a, l.take i ++ l.drop (i + 1))
  | none => none

/-- Rust `String::split_off(i)`: panics when `i > len`; returns the part
kept in place and the part split off. -/
def splitOff (l : List Char) (i : Nat) : Option (List Char × List Char) :=
  if i ≤ l.length then some (l.take i, l.drop i) else none

/-- Rust `str::split_inclusive('\n')`: segments of the string, each
keeping its terminating newline; an empty string gives no segments. -/
def splitInclusiveNl : List Char → List (List Char)
  | [] => []
  | c :: rest =>
    if c = '\n' then [c] :: splitInclusiveNl rest
    else
      match splitInclusiveNl rest with
      | [] => [[c]]
      | s :: ss => (c :: s) :: ss

/-- The per-segment map of Rust `str::lines`: strip one trailing `'\n'`,
and when one was stripped also strip one trailing `'\r'`. -/
def stripLineEnd (s : List Char) : List Char :=
  if s.getLast? = some '\n' then
    if s.dropLast.getLast? = some '\r' then s.dropLast.dropLast else s.dropLast
  else s

/-- Rust `str::lines` as used in `Editor::open`. -/
def linesOf (s : List Char) : List (List Char) :=
  (splitInclusiveNl s).map stripLineEnd

/-- `Editor::open`: load the file or start with an empty buffer.
`readResult` is the outcome of `fs::read_to_string` (`none` = the read
failed); `unwrap_or_default()` turns a failure into the empty string. -/
def openEd (filename : List Char) (readResult : Option (List Char)) : Editor :=
  { filename := filename
    content := linesOf (readResult.getD [])
    cursor_x := 0
    cursor_y := 0
    scroll_y := 0
    modified := false
    search_query := none }

/-- `Editor::open` returns `io::Result<Self>`, always built with `Ok`. -/
def openResult (filename : List Char) (readResult : Option (List Char)) :
    Except (List Char) Editor :=
  Except.ok (openEd filename readResult)

/-- The bytes `Editor::save` writes: `writeln!` emits each line followed
by one `'\n'`, the last line included. -/
def saveBytes (content : List (List Char)) : List Char :=
  content.foldr (fun l acc => l ++ '\n' :: acc) []

/-- `Editor::save`: optionally rebind the filename, serialize every line
with a trailing newline, clear `modified`.  Returns the written bytes
together with the post-save editor state. -/
def save (new_name : Option (List Char)) (e : Editor) : List Char × Editor :=
  let e1 := match new_name with
    | some name => { e with filename := name }
    | none => e
  (saveBytes e1.content, { e1 with modified := false })

/-- `Editor::insert_char`: append an empty line when the cursor row is at
or past the end, then insert `ch` at the cursor column and advance. -/
def insert_char (ch : Char) (e : Editor) : Option Editor :=
  let content := if e.content.length ≤ e.cursor_y then e.content ++ [[]] else e.content
  match content.get? e.cursor_y with
  | none => none
  | some line =>
    match seqInsert line e.cursor_x ch with
    | none => none
    | some line1 =>
      some { e with content := content.set e.cursor_y line1
                    cursor_x := e.cursor_x + 1
                    modified := true }

/-- `Editor::insert_newline`: past the end append an empty line, otherwise
split the current line at the cursor column; then move to `(row+1, 0)`. -/
def insert_newline (e : Editor) : Option Editor :=
  if e.content.length ≤ e.cursor_y then
    some { e with content := e.content ++ [[]]
                  cursor_y := e.cursor_y + 1
                  cursor_x := 0
                  modified := true }
  else
    match e.content.get? e.cursor_y with
    | none => none
    | some line =>
      match splitOff line e.cursor_x with
      | none => none
      | some (left, rest) =>
        match seqInsert (e.content.set e.cursor_y left) (e.cursor_y + 1) rest with
        | none => none
        | some content1 =>
          some { e with content := content1
                        cursor_y := e.cursor_y + 1
                        cursor_x := 0
                        modified := true }

/-- `Editor::delete_char`: in-line delete before the cursor, or join the
current line onto the previous one when at column 0 of a later row. -/
def delete_char (e : Editor) : Option Editor :=
  if e.cursor_y < e.content.length ∧ 0 < e.cursor_x then
    match e.content.get? e.cursor_y with
    | none => none
    | some line =>
      match seqRemove line (e.cursor_x - 1) with
      | none => none
      | some (_, line1) =>
        some { e with content := e.content.set e.cursor_y line1
                      cursor_x := e.cursor_x - 1
                      modified := true }
  else if 0 < e.cursor_y then
    match seqRemove e.content e.cursor_y with
    | none => none
    | some (current, content1) =>
      match content1.get? (e.cursor_y - 1) with
      | none => none
      | some prev =>
        some { e with content := content1.set (e.cursor_y - 1) (prev ++ current)
                      cursor_y := e.cursor_y - 1
                      cursor_x := prev.length
                      modified := true }
  else
    some e

/-- `Editor::current_line`: `self.content.get(self.cursor_y)`. -/
def current_line (e : Editor) : Option (List Char) :=
  e.content.get? e.cursor_y

/-- `Editor::move_cursor`: note that `len` is the length of the line the
cursor is on BEFORE the move, exactly as in the source. -/
def move_cursor (code : KeyCode) (visible_height : Nat) (e : Editor) : Editor :=
  let len := ((current_line e).map List.length).getD 0
  match code with
  | .up =>
    if 0 < e.cursor_y then
      { e with cursor_y := e.cursor_y - 1
               scroll_y := if e.cursor_y - 1 < e.scroll_y then e.scroll_y - 1 else e.scroll_y
               cursor_x := min e.cursor_x len }
    else e
  | .down =>
    if e.cursor_y + 1 < e.content.length then
      { e with cursor_y := e.cursor_y + 1
               scroll_y := if e.scroll_y + visible_height ≤ e.cursor_y + 1 then
                             e.scroll_y + 1
                           else e.scroll_y
               cursor_x := min e.cursor_x len }
    else e
  | .left =>
    if 0 < e.cursor_x then
      { e with cursor_x := e.cursor_x - 1 }
    else if 0 < e.cursor_y then
      { e with cursor_y := e.cursor_y - 1, cursor_x := len }
    else e
  | .right =>
    if e.cursor_x < len then
      { e with cursor_x := e.cursor_x + 1 }
    else if e.cursor_y + 1 < e.content.length then
      { e with cursor_y := e.cursor_y + 1, cursor_x := 0 }
    else e
  | .other => e

/-- A fresh editor over a missing file: `fs::read_to_string` failed, so
the buffer is empty (zero lines). -/
def egEmpty : Editor := openEd [] none

/-- The state after pressing Enter once in `egEmpty`: one empty line,
cursor parked one row past it. -/
def afterEnterEmpty : Editor :=
  { filename := [], content := [[]], cursor_x := 0, cursor_y := 1,
    scroll_y := 0, modified := true, search_query := none }

/-- A state reached from loading the two-line file `ab\nxyz` by the key
sequence Down, Right, Right, Right: cursor at row 1, column 3. -/
def egC1 : Editor :=
  move_cursor .right 10 (move_cursor .right 10 (move_cursor .right 10
    (move_cursor .down 10 (openEd [] (some ['a','b','\n','x','y','z'])))))

/-- A state reached from loading the three-empty-line file `\n\n\n` with
visible height 2 by the key sequence Down, Down, Up: cursor at row 1,
scroll offset 1 — the cursor row sits inside the scroll window. -/
def egC3pre : Editor :=
  move_cursor .up 2 (move_cursor .down 2 (move_cursor .down 2
    (openEd [] (some ['\n','\n','\n']))))

/-- The state insert-then-delete actually produces from `egEmpty`: the
lazily materialized line survives the deletion. -/
def egC4res : Editor :=
  { filename := [], content := [[]], cursor_x := 0, cursor_y := 0,
    scroll_y := 0, modified := true, search_query := none }

/-- The document `abc` with the cursor moved one step right: cursor at
(0, 1), the pre-split state of the spec's InsertNewline scenario. -/
def egC5 : Editor := move_cursor .right 5 (openEd [] (some ['a','b','c']))

/-- A one-line document with the cursor parked one row past the end. -/
def egPastEnd : Editor :=
  { filename := ['t'], content := [['x']], cursor_x := 0, cursor_y := 1,
    scroll_y := 0, modified := false, search_query := none }

/-- The spec's search scenario document `["foo","bar","baz"]`. -/
def egC7 : Editor := openEd [] (some ['f','o','o','\n','b','a','r','\n','b','a','z'])

/-- A two-character editor buffer used to witness the save round-trip. -/
def egC8 : Editor := openEd ['t'] (some ['h','i','\n'])

/-- Rust `str::find(&query)` on a line: index of the first position where
`query` occurs as a contiguous substring. -/
def findSub (q : List Char) : List Char → Option Nat
  | [] => if q.isEmpty then some 0 else none
  | c :: tl =>
    if q.isPrefixOf (c :: tl) then some 0
    else Option.map (· + 1) (findSub q tl)

/-- The iterator chain `content.iter().enumerate().find(|(_, line)|
line.contains(&query))` of `Editor::search`. -/
def findFirstMatch (q : List Char) : List (List Char) → Option (Nat × List Char)
  | [] => none
  | l :: ls =>
    if (findSub q l).isSome then some (0, l)
    else Option.map (fun p => (p.1 + 1, p.2)) (findFirstMatch q ls)

/-- `Editor::search`: retain the query, then jump to the first line
containing it (first occurrence offset within that line), if any. -/
def search (query : List Char) (e : Editor) : Editor :=
  match findFirstMatch query e.content with
  | some yl =>
    { e with search_query := some query
             cursor_y := yl.1
             cursor_x := (findSub query (e.content.getD yl.1 [])).getD 0 }
  | none => { e with search_query := some query }

/-- Taking at most the length keeps exactly `n` elements. -/
theorem length_take_of_le (l : List α) (n : Nat) (h : n ≤ l.length) :
    (l.take n).length = n := by
  simp [List.length_take, Nat.min_eq_left h]

/-- Reading back an in-range overwrite yields the written element. -/
theorem getElem?_set_self : ∀ (l : List α) (i : Nat) (a : α), i < l.length →
    (l.set i a)[i]? = some a := by
  intro l
  induction l with
  | nil => intro i a h; simp at h
  | cons b tl ih =>
    intro i a h
    cases i with
    | zero => simp
    | succ n =>
      have hn : n < tl.length := by simpa using h
      simpa [List.set] using ih n a hn

/-- Overwriting a position with the element already there is a no-op. -/
theorem set_getElem?_self : ∀ (l : List α) (i : Nat) (a : α), l[i]? = some a →
    l.set i a = l := by
  intro l
  induction l with
  | nil => intro i a h; simp at h
  | cons b tl ih =>
    intro i a h
    cases i with
    | zero =>
      have hb : b = a := by simpa using h
      simp [hb]
    | succ n =>
      have h2 : tl[n]? = some a := by simpa using h
      simp [List.set, ih n a h2]

/-- The element just past an appended block is the first added one. -/
theorem getElem?_append_length (l1 : List α) (a : α) (l2 : List α) :
    (l1 ++ a :: l2)[l1.length]? = some a := by
  induction l1 with
  | nil => simp
  | cons b tl ih => simpa using ih

/-- A successful indexed lookup implies the index is in range. -/
theorem lt_of_getElem?_some (l : List α) (i : Nat) (a : α) (h : l[i]? = some a) :
    i < l.length := by
  cases Nat.lt_or_ge i l.length with
  | inl hlt => exact hlt
  | inr hge => rw [List.getElem?_eq_none hge] at h; cases h

/-- Taking `x` elements of a list with one element inserted at `x`
recovers the original first `x` elements. -/
theorem take_append_cons_take (l : List α) (x : Nat) (hx : x ≤ l.length) (a : α) :
    (l.take x ++ a :: l.drop x).take x = l.take x := by
  have hlen : (l.take x).length = x := length_take_of_le l x hx
  calc (l.take x ++ a :: l.drop x).take x
      = (l.take x ++ a :: l.drop x).take (l.take x).length := by rw [hlen]
    _ = l.take x := List.take_left _ _

/-- Dropping `x + 1` elements of a list with one element inserted at `x`
recovers the original tail from `x` on. -/
theorem drop_append_cons_drop (l : List α) (x : Nat) (hx : x ≤ l.length) (a : α) :
    (l.take x ++ a :: l.drop x).drop (x + 1) = l.drop x := by
  have h2 : l.take x ++ a :: l.drop x = (l.take x ++ [a]) ++ l.drop x := by simp
  have hlen : (l.take x ++ [a]).length = x + 1 := by
    simp [length_take_of_le l x hx]
  calc (l.take x ++ a :: l.drop x).drop (x + 1)
      = ((l.take x ++ [a]) ++ l.drop x).drop (x + 1) := by rw [h2]
    _ = ((l.take x ++ [a]) ++ l.drop x).drop (l.take x ++ [a]).length := by rw [hlen]
    _ = l.drop x := List.drop_left _ _

/-- Splitting a string consisting of a newline-free block, a newline and
a remainder keeps the block (with its newline) as the first segment. -/
theorem splitInclusiveNl_append (l r : List Char) (hl : '\n' ∉ l) :
    splitInclusiveNl (l ++ '\n' :: r) = (l ++ ['\n']) :: splitInclusiveNl r := by
  induction l with
  | nil => simp [splitInclusiveNl]
  | cons c tl ih =>
    have hc : ¬ c = '\n' := by
      intro hc; exact hl (by simp [hc])
    have htl : '\n' ∉ tl := by
      intro hm; exact hl (by simp [hm])
    simp only [List.cons_append, splitInclusiveNl, List.append_eq, ih htl, if_neg hc]

/-- Stripping the line ending of `l ++ "\n"` recovers `l`, provided `l`
does not itself end in a carriage return. -/
theorem stripLineEnd_append_newline (l : List Char) (h : l.getLast? ≠ some '\r') :
    stripLineEnd (l ++ ['\n']) = l := by
  simp [stripLineEnd, List.getLast?_concat, List.dropLast_concat, h]

/-- Round trip of the storage format: writing lines each followed by a
newline and splitting the bytes back recovers the lines, provided no line
contains a newline or ends in a carriage return. -/
theorem linesOf_saveBytes (content : List (List Char))
    (h : ∀ l ∈ content, '\n' ∉ l ∧ l.getLast? ≠ some '\r') :
    linesOf (saveBytes content) = content := by
  induction content with
  | nil => rfl
  | cons l ls ih =>
    have h1 := h l (by simp)
    have h2 : ∀ x ∈ ls, '\n' ∉ x ∧ x.getLast? ≠ some '\r' := fun x hx => h x (by simp [hx])
    have hsb : saveBytes (l :: ls) = l ++ '\n' :: saveBytes ls := rfl
    unfold linesOf
    rw [hsb, splitInclusiveNl_append l (saveBytes ls) h1.1]
    simp only [List.map_cons]
    rw [stripLineEnd_append_newline l h1.2]
    have hih := ih h2
    unfold linesOf at hih
    rw [hih]

/-- A query is a prefix of the empty line exactly when it is empty. -/
theorem isPrefixOf_nil_eq (q : List Char) : q.isPrefixOf ([] : List Char) = q.isEmpty := by
  cases q <;> rfl

/-- When `findSub` reports no match, the query occurs nowhere in the line. -/
theorem findSub_none_no_occurrence (q : List Char) :
    ∀ (l : List Char), findSub q l = none → ∀ j, q.isPrefixOf (l.drop j) = false := by
  intro l
  induction l with
  | nil =>
    intro h j
    simp only [findSub] at h
    split at h
    · exact absurd h (by simp)
    · next hqe =>
      have hq0 : q.isEmpty = false := by
        cases hb : q.isEmpty
        · rfl
        · exact absurd hb hqe
      simpa [isPrefixOf_nil_eq] using hq0
  | cons c tl ih =>
    intro h j
    simp only [findSub] at h
    split at h
    · exact absurd h (by simp)
    · next hp =>
      have h2 : findSub q tl = none := by
        cases hfs : findSub q tl with
        | none => rfl
        | some m => rw [hfs] at h; exact absurd h (by simp)
      cases j with
      | zero =>
        simp only [List.drop_zero]
        cases hb : q.isPrefixOf (c :: tl)
        · rfl
        · exact absurd hb hp
      | succ n =>
        simp only [List.drop_succ_cons]
        exact ih h2 n

/-- When `findSub` reports index `m`, the query occurs at `m` and at no
earlier offset: `m` is the first occurrence. -/
theorem findSub_some_first (q : List Char) :
    ∀ (l : List Char) (m : Nat), findSub q l = some m →
      q.isPrefixOf (l.drop m) = true ∧ ∀ j, j < m → q.isPrefixOf (l.drop j) = false := by
  intro l
  induction l with
  | nil =>
    intro m h
    simp only [findSub] at h
    split at h
    · next hqe =>
      have hm : m = 0 := by cases h; rfl
      subst hm
      have hqnil : q = [] := by
        cases q with
        | nil => rfl
        | cons a as => simp [List.isEmpty] at hqe
      exact ⟨by simp [hqnil, List.isPrefixOf], fun j hj => absurd hj (Nat.not_lt_zero j)⟩
    · exact absurd h (by simp)
  | cons c tl ih =>
    intro m h
    simp only [findSub] at h
    split at h
    · next hp =>
      have hm : m = 0 := by cases h; rfl
      subst hm
      exact ⟨by simpa using hp, fun j hj => absurd hj (Nat.not_lt_zero j)⟩
    · next hp =>
      cases hfs : findSub q tl with
      | none => rw [hfs] at h; exact absurd h (by simp)
      | some m0 =>
        rw [hfs] at h
        simp only [Option.map_some'] at h
        have hm : m0 + 1 = m := by simpa using h
        subst hm
        obtain ⟨hp1, hb1⟩ := ih m0 hfs
        refine ⟨by simpa [List.drop_succ_cons] using hp1, ?_⟩
        intro j hj
        cases j with
        | zero =>
          simp only [List.drop_zero]
          cases hb : q.isPrefixOf (c :: tl)
          · rfl
          · exact absurd hb hp
        | succ n =>
          simp only [List.drop_succ_cons]
          exact hb1 n (by omega)

/-- If a non-empty query occurs at no offset of a line (offsets up to the
line length suffice), `findSub` reports no match. -/
theorem findSub_eq_none_of_no_occurrence (q : List Char) (hq : q ≠ []) (l : List Char)
    (h : ∀ j, j ≤ l.length → q.isPrefixOf (l.drop j) = false) : findSub q l = none := by
  cases hfs : findSub q l with
  | none => rfl
  | some m =>
    have hm := (findSub_some_first q l m hfs).1
    by_cases hle : m ≤ l.length
    · rw [h m hle] at hm; exact absurd hm (by simp)
    · have hdrop : l.drop m = [] := List.drop_eq_nil_of_le (Nat.le_of_lt (Nat.not_le.mp hle))
      rw [hdrop, isPrefixOf_nil_eq] at hm
      cases q with
      | nil => exact absurd rfl hq
      | cons a as => simp [List.isEmpty] at hm

/-- A line with an occurrence of the query makes `findSub` succeed. -/
theorem findSub_isSome_of_occurrence (q l : List Char) (j : Nat)
    (h : q.isPrefixOf (l.drop j) = true) : (findSub q l).isSome = true := by
  cases hfs : findSub q l with
  | some m => rfl
  | none => rw [findSub_none_no_occurrence q l hfs j] at h; exact absurd h (by simp)

/-- A failed document scan means no line matches the query. -/
theorem findFirstMatch_none (q : List Char) :
    ∀ (ls : List (List Char)), findFirstMatch q ls = none →
      ∀ i, i < ls.length → findSub q (ls.getD i []) = none := by
  intro ls
  induction ls with
  | nil => intro h i hi; simp at hi
  | cons l tl ih =>
    intro h i hi
    simp only [findFirstMatch] at h
    split at h
    · exact absurd h (by simp)
    · next hp =>
      have hl : findSub q l = none := by
        cases hfs : findSub q l with
        | none => rfl
        | some m => rw [hfs] at hp; exact absurd rfl hp
      have htl : findFirstMatch q tl = none := by
        cases hff : findFirstMatch q tl with
        | none => rfl
        | some p => rw [hff] at h; exact absurd h (by simp)
      cases i with
      | zero => simpa using hl
      | succ n => simpa using ih htl n (by simpa using hi)

/-- A successful document scan returns an in-range index of a line that
matches the query. -/
theorem findFirstMatch_some_facts (q : List Char) :
    ∀ (ls : List (List Char)) (k : Nat) (line : List Char),
      findFirstMatch q ls = some (k, line) →
      k < ls.length ∧ line = ls.getD k [] ∧ (findSub q line).isSome = true := by
  intro ls
  induction ls with
  | nil => intro k line h; simp [findFirstMatch] at h
  | cons l tl ih =>
    intro k line h
    simp only [findFirstMatch] at h
    split at h
    · next hp =>
      have hkl : 0 = k ∧ l = line := by simpa using h
      obtain ⟨hk0, hl0⟩ := hkl
      subst hk0
      subst hl0
      exact ⟨Nat.succ_pos _, by simp, hp⟩
    · next hp =>
      cases hff : findFirstMatch q tl with
      | none => rw [hff] at h; exact absurd h (by simp)
      | some p =>
        rw [hff] at h
        simp only [Option.map_some'] at h
        have hkl : p.1 + 1 = k ∧ p.2 = line := by simpa using h
        obtain ⟨hk1, hl1⟩ := hkl
        subst hk1
        subst hl1
        obtain ⟨hlt, heq, hs⟩ := ih p.1 p.2 (by rw [hff])
        exact ⟨by simpa using Nat.succ_lt_succ hlt, by simpa using heq, hs⟩

/-- The document scan finds exactly the first matching line: if line `k`
matches and no earlier line does, the scan returns `k` with that line. -/
theorem findFirstMatch_eq_some (q : List Char) :
    ∀ (ls : List (List Char)) (k : Nat), k < ls.length →
      (findSub q (ls.getD k [])).isSome = true →
      (∀ i, i < k → findSub q (ls.getD i []) = none) →
      findFirstMatch q ls = some (k, ls.getD k []) := by
  intro ls
  induction ls with
  | nil => intro k hk; simp at hk
  | cons l tl ih =>
    intro k hk hsome hbefore
    cases k with
    | zero =>
      simp only [List.getD_cons_zero] at hsome ⊢
      simp [findFirstMatch, hsome]
    | succ n =>
      have h0 : findSub q l = none := by simpa using hbefore 0 (Nat.succ_pos n)
      have hn : n < tl.length := by simpa using hk
      have hsome1 : (findSub q (tl.getD n [])).isSome = true := by simpa using hsome
      have hbefore1 : ∀ i, i < n → findSub q (tl.getD i []) = none := fun i hi => by
        simpa using hbefore (i + 1) (by omega)
      simp [findFirstMatch, h0, ih n hn hsome1 hbefore1]

/-- C1: the claim says MoveCursor keeps `column ≤ len(current line)` and
that Up clamps the column to the NEW current line's length.  The code
clamps with the length of the line the cursor was on BEFORE the move:
from the valid state `egC1` (document `["ab","xyz"]`, cursor `(1,3)`),
Up yields row 0 with column 3, but line 0 (`"ab"`) has length 2 — the
claimed invariant `column ≤ len(current line)` is violated. -/
theorem move_up_stale_column_clamp_bug :
    egC1.cursor_y < egC1.content.length ∧
    egC1.cursor_x ≤ (egC1.content.getD egC1.cursor_y []).length ∧
    (move_cursor .up 10 egC1).cursor_y = 0 ∧
    (move_cursor .up 10 egC1).cursor_x = 3 ∧
    ((move_cursor .up 10 egC1).content.getD (move_cursor .up 10 egC1).cursor_y []).length = 2 ∧
    ¬ ((move_cursor .up 10 egC1).cursor_x ≤
        ((move_cursor .up 10 egC1).content.getD (move_cursor .up 10 egC1).cursor_y []).length) := by
  decide

/-- C2: the claim says no edit operation ever hits an out-of-range index
on a reachable state.  From a freshly loaded empty buffer, InsertNewline
succeeds (leaving the cursor one row past the single empty line), and the
following DeleteChar takes the join branch and calls `Vec::remove(1)` on
a one-element vector — the panicking branch (`none`) is reached. -/
theorem delete_char_out_of_bounds_bug :
    insert_newline egEmpty = some afterEnterEmpty ∧
    delete_char afterEnterEmpty = none := by
  decide

/-- C3: the claim says the cursor row always stays inside
`[scroll_y, scroll_y + visibleHeight)`.  With visible height 2, the state
`egC3pre` (reached from load by Down, Down, Up) satisfies the window
invariant, but the next Left wraps the cursor to the previous row without
touching `scroll_y`, leaving row 0 above scroll offset 1. -/
theorem left_wrap_breaks_scroll_window :
    egC3pre.scroll_y ≤ egC3pre.cursor_y ∧
    egC3pre.cursor_y < egC3pre.scroll_y + 2 ∧
    (move_cursor .left 2 egC3pre).cursor_y = 0 ∧
    (move_cursor .left 2 egC3pre).scroll_y = 1 ∧
    ¬ ((move_cursor .left 2 egC3pre).scroll_y ≤ (move_cursor .left 2 egC3pre).cursor_y) := by
  decide

/-- C4 counterexample: on the empty document, InsertChar lazily
materializes a line, and the immediate DeleteChar removes the character
but not the line, so the (Document, Cursor) pair is NOT restored: the
document ends as `[""]`, not `[]`. -/
theorem insert_delete_not_inverse_on_empty_doc :
    Option.bind (insert_char 'h' egEmpty) delete_char = some egC4res ∧
    egC4res.content ≠ egEmpty.content := by
  decide

/-- C6 counterexample: with the cursor at/past the end, InsertNewline
does append exactly one empty line, but it leaves the cursor row at
`old row + 1` — one row PAST the appended line (whose index is the old
document length), not at its start as claimed. -/
theorem insert_newline_past_end_cursor_position :
    Option.map Editor.content (insert_newline egEmpty) = some (egEmpty.content ++ [[]]) ∧
    Option.map Editor.cursor_y (insert_newline egEmpty) = some (egEmpty.content.length + 1) ∧
    ¬ Option.map Editor.cursor_y (insert_newline egEmpty) = some egEmpty.content.length := by
  decide

/-- C6 amended: for every state whose cursor row is at or past the end of
the document, InsertNewline appends exactly one empty line, sets the
column to 0, and sets the row to `old row + 1` — which is one past the
appended line, not the appended line's index. -/
theorem insert_newline_past_end_appends_empty_line (e : Editor)
    (h : e.content.length ≤ e.cursor_y) :
    insert_newline e = some { e with content := e.content ++ [[]]
                                     cursor_y := e.cursor_y + 1
                                     cursor_x := 0
                                     modified := true } := by
  unfold insert_newline
  rw [if_pos h]

/-- C6 witness: the amended theorem applied to a concrete one-line
document with the cursor parked one row past the end. -/
theorem insert_newline_past_end_appends_empty_line_witness :
    insert_newline egPastEnd = some { egPastEnd with
                                      content := egPastEnd.content ++ [[]]
                                      cursor_y := egPastEnd.cursor_y + 1
                                      cursor_x := 0
                                      modified := true } :=
  insert_newline_past_end_appends_empty_line egPastEnd (by decide)

/-- C9: Load never surfaces an error — `Editor::open` always returns
`Ok`; a failed read is replaced by the empty string, yielding an empty
document (zero lines), and a successful read is split into lines. -/
theorem open_swallows_read_failure (fn : List Char) (r : Option (List Char)) :
    openResult fn r = Except.ok (openEd fn r) ∧
    (openEd fn none).content = [] ∧
    (openEd fn r).content = linesOf (r.getD []) :=
  ⟨rfl, rfl, rfl⟩

/-- C10: whatever the read result, the editor produced by `Editor::open`
starts with cursor (0,0), scroll offset 0, `modified` false, no retained
search term, and the requested filename. -/
theorem open_initial_state (fn : List Char) (r : Option (List Char)) :
    (openEd fn r).cursor_x = 0 ∧
    (openEd fn r).cursor_y = 0 ∧
    (openEd fn r).scroll_y = 0 ∧
    (openEd fn r).modified = false ∧
    (openEd fn r).search_query = none ∧
    (openEd fn r).filename = fn :=
  ⟨rfl, rfl, rfl, rfl, rfl, rfl⟩

/-- C4 amended: whenever the cursor is on an existing line with column at
most that line's length, InsertChar followed immediately by DeleteChar
restores the (Document, Cursor) pair exactly; when the cursor row is at
or past the end of the document, the lazily materialized empty line
survives the deletion (see the counterexample). -/
theorem insert_then_delete_restores_state (e : Editor) (ch : Char) (line : List Char)
    (hy : e.content[e.cursor_y]? = some line) (hx : e.cursor_x ≤ line.length) :
    ∃ e1, insert_char ch e = some e1 ∧ ∃ e2, delete_char e1 = some e2 ∧
      e2.content = e.content ∧ e2.cursor_x = e.cursor_x ∧ e2.cursor_y = e.cursor_y := by
  have hylt : e.cursor_y < e.content.length := lt_of_getElem?_some _ _ _ hy
  have hnotle : ¬ e.content.length ≤ e.cursor_y := Nat.not_le.mpr hylt
  have h1 : insert_char ch e = some
      { e with content := e.content.set e.cursor_y
                 (line.take e.cursor_x ++ ch :: line.drop e.cursor_x)
               cursor_x := e.cursor_x + 1
               modified := true } := by
    simp [insert_char, seqInsert, hnotle, hy, hx]
  have hy1 : (e.content.set e.cursor_y
      (line.take e.cursor_x ++ ch :: line.drop e.cursor_x))[e.cursor_y]?
      = some (line.take e.cursor_x ++ ch :: line.drop e.cursor_x) :=
    getElem?_set_self _ _ _ (by simpa using hylt)
  have hgx : (line.take e.cursor_x ++ ch :: line.drop e.cursor_x)[e.cursor_x]? = some ch := by
    have hlen : (line.take e.cursor_x).length = e.cursor_x := length_take_of_le line _ hx
    calc (line.take e.cursor_x ++ ch :: line.drop e.cursor_x)[e.cursor_x]?
        = (line.take e.cursor_x ++ ch ::
            line.drop e.cursor_x)[(line.take e.cursor_x).length]? := by rw [hlen]
      _ = some ch := getElem?_append_length _ _ _
  have h2 : delete_char
      { e with content := e.content.set e.cursor_y
                 (line.take e.cursor_x ++ ch :: line.drop e.cursor_x)
               cursor_x := e.cursor_x + 1
               modified := true } = some
      { e with content := e.content
               cursor_x := e.cursor_x
               modified := true } := by
    have hrem : (line.take e.cursor_x ++ ch :: line.drop e.cursor_x).take e.cursor_x ++
        (line.take e.cursor_x ++ ch :: line.drop e.cursor_x).drop (e.cursor_x + 1) = line := by
      rw [take_append_cons_take line e.cursor_x hx ch,
          drop_append_cons_drop line e.cursor_x hx ch]
      exact List.take_append_drop _ _
    simp [delete_char, seqRemove, List.length_set, hylt, hy1, hgx, hrem, List.set_set,
      set_getElem?_self e.content e.cursor_y line hy]
  exact ⟨_, h1, _, h2, rfl, rfl, rfl⟩

/-- C4 witness: the amended theorem applied to the document `["hi"]` with
cursor (0,0), inserting then deleting the character `z`. -/
theorem insert_then_delete_restores_state_witness :
    ∃ e1, insert_char 'z' egC8 = some e1 ∧ ∃ e2, delete_char e1 = some e2 ∧
      e2.content = egC8.content ∧ e2.cursor_x = egC8.cursor_x ∧ e2.cursor_y = egC8.cursor_y :=
  insert_then_delete_restores_state egC8 'z' ['h','i'] (by decide) (by decide)

/-- C5: whenever the cursor is on an existing line with column at most
that line's length, InsertNewline (which splits the line and leaves the
cursor at column 0 of the newly created line) followed immediately by
DeleteChar restores the single pre-split line, the original cursor row
and the original cursor column: the join is the exact inverse of the
split. -/
theorem newline_then_delete_restores_state (e : Editor) (line : List Char)
    (hy : e.content[e.cursor_y]? = some line) (hx : e.cursor_x ≤ line.length) :
    ∃ e1, insert_newline e = some e1 ∧ e1.cursor_y = e.cursor_y + 1 ∧ e1.cursor_x = 0 ∧
      ∃ e2, delete_char e1 = some e2 ∧
        e2.content = e.content ∧ e2.cursor_x = e.cursor_x ∧ e2.cursor_y = e.cursor_y := by
  have hylt : e.cursor_y < e.content.length := lt_of_getElem?_some _ _ _ hy
  have hnotle : ¬ e.content.length ≤ e.cursor_y := Nat.not_le.mpr hylt
  have hsucc : e.cursor_y + 1 ≤ e.content.length := hylt
  have h1 : insert_newline e = some
      { e with content :=
                 (e.content.set e.cursor_y (line.take e.cursor_x)).take (e.cursor_y + 1)
                   ++ line.drop e.cursor_x ::
                     (e.content.set e.cursor_y (line.take e.cursor_x)).drop (e.cursor_y + 1)
               cursor_y := e.cursor_y + 1
               cursor_x := 0
               modified := true } := by
    simp [insert_newline, splitOff, seqInsert, hnotle, hy, hx, hsucc]
  have hc1succ : e.cursor_y + 1 ≤ (e.content.set e.cursor_y (line.take e.cursor_x)).length := by
    simpa using hsucc
  have htklen : ((e.content.set e.cursor_y (line.take e.cursor_x)).take (e.cursor_y + 1)).length
      = e.cursor_y + 1 := length_take_of_le _ _ hc1succ
  have hget : ((e.content.set e.cursor_y (line.take e.cursor_x)).take (e.cursor_y + 1)
      ++ line.drop e.cursor_x ::
        (e.content.set e.cursor_y (line.take e.cursor_x)).drop (e.cursor_y + 1))[e.cursor_y + 1]?
      = some (line.drop e.cursor_x) := by
    calc ((e.content.set e.cursor_y (line.take e.cursor_x)).take (e.cursor_y + 1)
        ++ line.drop e.cursor_x ::
          (e.content.set e.cursor_y (line.take e.cursor_x)).drop (e.cursor_y + 1))[e.cursor_y + 1]?
        = ((e.content.set e.cursor_y (line.take e.cursor_x)).take (e.cursor_y + 1)
        ++ line.drop e.cursor_x ::
          (e.content.set e.cursor_y (line.take e.cursor_x)).drop
            (e.cursor_y + 1))[((e.content.set e.cursor_y (line.take e.cursor_x)).take
              (e.cursor_y + 1)).length]? := by rw [htklen]
      _ = some (line.drop e.cursor_x) := getElem?_append_length _ _ _
  have hrem : ((e.content.set e.cursor_y (line.take e.cursor_x)).take (e.cursor_y + 1)
      ++ line.drop e.cursor_x ::
        (e.content.set e.cursor_y (line.take e.cursor_x)).drop
          (e.cursor_y + 1)).take (e.cursor_y + 1)
      ++ ((e.content.set e.cursor_y (line.take e.cursor_x)).take (e.cursor_y + 1)
      ++ line.drop e.cursor_x ::
        (e.content.set e.cursor_y (line.take e.cursor_x)).drop
          (e.cursor_y + 1)).drop (e.cursor_y + 1 + 1)
      = e.content.set e.cursor_y (line.take e.cursor_x) := by
    rw [take_append_cons_take _ _ hc1succ, drop_append_cons_drop _ _ hc1succ]
    exact List.take_append_drop _ _
  have hgy : (e.content.set e.cursor_y (line.take e.cursor_x))[e.cursor_y]?
      = some (line.take e.cursor_x) := getElem?_set_self _ _ _ (by simpa using hylt)
  have h2 : delete_char
      { e with content :=
                 (e.content.set e.cursor_y (line.take e.cursor_x)).take (e.cursor_y + 1)
                   ++ line.drop e.cursor_x ::
                     (e.content.set e.cursor_y (line.take e.cursor_x)).drop (e.cursor_y + 1)
               cursor_y := e.cursor_y + 1
               cursor_x := 0
               modified := true } = some
      { e with content := e.content
               cursor_x := e.cursor_x
               modified := true } := by
    simp [delete_char, seqRemove, hget, hrem, hgy, List.set_set, List.take_append_drop,
      set_getElem?_self e.content e.cursor_y line hy, length_take_of_le line e.cursor_x hx]
  exact ⟨_, h1, rfl, rfl, _, h2, rfl, rfl, rfl⟩

/-- C5 witness: the spec scenario — document `["abc"]`, cursor (0,1):
split then join restores the document and the cursor. -/
theorem newline_then_delete_restores_state_witness :
    ∃ e1, insert_newline egC5 = some e1 ∧ e1.cursor_y = egC5.cursor_y + 1 ∧ e1.cursor_x = 0 ∧
      ∃ e2, delete_char e1 = some e2 ∧
        e2.content = egC5.content ∧ e2.cursor_x = egC5.cursor_x ∧ e2.cursor_y = egC5.cursor_y :=
  newline_then_delete_restores_state egC5 ['a','b','c'] (by decide) (by decide)

/-- C7: for every state and non-empty query, Search keeps the document
unchanged and retains the query; when no line contains the query the
cursor is unchanged, and when some line does, the cursor jumps to the
first such line (scanning from index 0) and to the first occurrence
offset within it. -/
theorem search_jumps_to_first_match (e : Editor) (q : List Char) (hq : q ≠ []) :
    (search q e).content = e.content ∧
    (search q e).search_query = some q ∧
    ((∀ i, i < e.content.length → ∀ j, j ≤ (e.content.getD i []).length →
        q.isPrefixOf ((e.content.getD i []).drop j) = false) →
      (search q e).cursor_y = e.cursor_y ∧ (search q e).cursor_x = e.cursor_x) ∧
    (∀ k, k < e.content.length →
      (∃ j, q.isPrefixOf ((e.content.getD k []).drop j) = true) →
      (∀ i, i < k → ∀ j, j ≤ (e.content.getD i []).length →
        q.isPrefixOf ((e.content.getD i []).drop j) = false) →
      (search q e).cursor_y = k ∧
      ∃ m, q.isPrefixOf ((e.content.getD k []).drop m) = true ∧
        (∀ j, j < m → q.isPrefixOf ((e.content.getD k []).drop j) = false) ∧
        (search q e).cursor_x = m) := by
  refine ⟨?_, ?_, ?_, ?_⟩
  · unfold search; cases findFirstMatch q e.content <;> rfl
  · unfold search; cases findFirstMatch q e.content <;> rfl
  · intro habs
    have hnone : findFirstMatch q e.content = none := by
      cases hff : findFirstMatch q e.content with
      | none => rfl
      | some p =>
        obtain ⟨hlt, heq, hs⟩ := findFirstMatch_some_facts q e.content p.1 p.2 (by rw [hff])
        have hsubnone : findSub q (e.content.getD p.1 []) = none :=
          findSub_eq_none_of_no_occurrence q hq _ (habs p.1 hlt)
        rw [← heq] at hsubnone
        rw [hsubnone] at hs
        simp at hs
    unfold search
    rw [hnone]
    exact ⟨rfl, rfl⟩
  · intro k hk hex hbefore
    obtain ⟨j, hj⟩ := hex
    have hbefore1 : ∀ i, i < k → findSub q (e.content.getD i []) = none := fun i hi =>
      findSub_eq_none_of_no_occurrence q hq _ (hbefore i hi)
    have hsome : (findSub q (e.content.getD k [])).isSome = true :=
      findSub_isSome_of_occurrence q _ j hj
    have hff : findFirstMatch q e.content = some (k, e.content.getD k []) :=
      findFirstMatch_eq_some q e.content k hk hsome hbefore1
    cases hfs : findSub q (e.content.getD k []) with
    | none => rw [hfs] at hsome; simp at hsome
    | some m =>
      obtain ⟨hpm, hbm⟩ := findSub_some_first q _ m hfs
      refine ⟨?_, m, hpm, hbm, ?_⟩
      · unfold search
        rw [hff]
      · unfold search
        rw [hff]
        have hfs2 : findSub q (e.content[k]?.getD []) = some m := by
          simpa [List.getD_eq_getElem?_getD] using hfs
        simp [hfs2]

/-- C7 witness: the spec scenario — on `["foo","bar","baz"]`, searching
for `baz` moves the cursor to row 2, column 0 (the first occurrence). -/
theorem search_jumps_to_first_match_witness :
    (search ['b','a','z'] egC7).cursor_y = 2 ∧
    ∃ m, ['b','a','z'].isPrefixOf ((egC7.content.getD 2 []).drop m) = true ∧
      (∀ j, j < m → ['b','a','z'].isPrefixOf ((egC7.content.getD 2 []).drop j) = false) ∧
      (search ['b','a','z'] egC7).cursor_x = m :=
  (search_jumps_to_first_match egC7 ['b','a','z'] (by decide)).2.2.2 2 (by decide)
    ⟨0, by decide⟩ (by decide)

/-- C8 counterexample: a document line that ends in a carriage return but
contains no newline — so it is free of embedded line terminators — does
not survive the save/load round trip: `["a\r"]` is saved as the bytes
`a\r\n`, which load back as `["a"]` because Rust `str::lines` strips the
`\r\n` sequence. -/
theorem save_load_roundtrip_fails_on_trailing_cr :
    ('\n' ∉ ['a','\r']) ∧
    saveBytes [['a','\r']] = ['a','\r','\n'] ∧
    linesOf (saveBytes [['a','\r']]) = [['a']] ∧
    linesOf (saveBytes [['a','\r']]) ≠ [['a','\r']] := by
  decide

/-- C8 amended: for every document whose lines contain no newline AND do
not end in a carriage return, Save writes each line followed by one line
terminator (the last line included), clears the modified flag, leaves the
buffer unchanged, and loading the written bytes back yields exactly the
same line sequence. -/
theorem save_load_roundtrip (e : Editor) (nn : Option (List Char))
    (h : ∀ l ∈ e.content, '\n' ∉ l ∧ l.getLast? ≠ some '\r') :
    (save nn e).1 = saveBytes e.content ∧
    (save nn e).2.modified = false ∧
    (save nn e).2.content = e.content ∧
    linesOf (save nn e).1 = e.content := by
  have hfst : (save nn e).1 = saveBytes e.content := by cases nn <;> rfl
  refine ⟨hfst, ?_, ?_, ?_⟩
  · cases nn <;> rfl
  · cases nn <;> rfl
  · rw [hfst]; exact linesOf_saveBytes e.content h

/-- C8 witness: the amended theorem applied to the document `["hi"]`
saved under its own name. -/
theorem save_load_roundtrip_witness :
    (save none egC8).1 = saveBytes egC8.content ∧
    (save none egC8).2.modified = false ∧
    (save none egC8).2.content = egC8.content ∧
    linesOf (save none egC8).1 = egC8.content :=
  save_load_roundtrip egC8 none (by decide)

end Rano
